import Mathlib

/-!
Verification of the `kbehdz` binding registry (src/kbehdz.rs).

The registry is `Bindings<E, R>(HashMap<E, Action<'a, R>>)`.  We embed the
hash map as an association list with unique keys: `insert` overwrites the
entry for an existing key in place and appends otherwise, `get` returns the
value at the first (hence only) matching key.  This matches the
observational semantics of `std::collections::HashMap`.

An action `Action<'a, R> = &'a (Fn() -> R + 'a)` is a non-owning handle to a
deferred computation; we model the handle by an arbitrary type `A` with
decidable equality (reference identity of the callable) together with an
interpretation `call : A → R` giving the result the callable produces when
invoked.  Invocations are made observable by instrumented variants that
also return the list of handles invoked during the operation.
-/

set_option autoImplicit false

universe u v w

variable {E : Type u} {A : Type v} {R : Type w}

/-- The registry: the newtype `Bindings` over a hash map from events to
action handles, embedded as an association list with unique keys. -/
def Bindings (E : Type u) (A : Type v) : Type (max u v) := List (E × A)

/-- `HashMap::insert`: overwrite the entry for `e` if present, append
otherwise. -/
def hmInsert [DecidableEq E] : Bindings E A → E → A → Bindings E A
  | [], e, a => [(e, a)]
  | (k, v) :: rest, e, a =>
      if k = e then (e, a) :: rest else (k, v) :: hmInsert rest e a

/-- `HashMap::get` on the owned key type: the value at key `e`, if any. -/
def hmGet [DecidableEq E] : Bindings E A → E → Option A
  | [], _ => none
  | (k, v) :: rest, e => if k = e then some v else hmGet rest e

/-- `HashMap::get` through a borrowed key type `T`: the Rust lookup
`self.0.get(event)` with `E : Borrow<T>` compares each stored key's
borrowed form against the supplied `event : &T`. -/
def hmGetBy {T : Type u} [DecidableEq T] (borrow : E → T) :
    Bindings E A → T → Option A
  | [], _ => none
  | (k, v) :: rest, t => if borrow k = t then some v else hmGetBy borrow rest t

/-- `Bindings::new`: the empty registry. -/
def Bindings.new : Bindings E A := []

/-- `Bindings::bind_action` (src/kbehdz.rs lines 103–107): insert or
overwrite the binding, `self.0.insert(event.to_owned(), action)`.  Here the
event is already in owned form. -/
def Bindings.bind_action [DecidableEq E] (m : Bindings E A) (event : E)
    (action : A) : Bindings E A :=
  hmInsert m event action

/-- `Bindings::get_action` (src/kbehdz.rs lines 126–130):
`self.0.get(event).and_then(|&action| Some(action))`. -/
def Bindings.get_action [DecidableEq E] (m : Bindings E A) (event : E) :
    Option A :=
  (hmGet m event).bind (fun action => some action)

/-- `Bindings::get_action` called with a borrowed key of type `T`. -/
def Bindings.get_action_via {T : Type u} [DecidableEq T] (borrow : E → T)
    (m : Bindings E A) (event : T) : Option A :=
  (hmGetBy borrow m event).bind (fun action => some action)

/-- `Bindings::run_action` (src/kbehdz.rs lines 79–83):
`self.get_action(event).and_then(|action| Some(action()))`, where invoking
the handle `action` yields `call action`. -/
def Bindings.run_action [DecidableEq E] (call : A → R) (m : Bindings E A)
    (event : E) : Option R :=
  (m.get_action event).bind (fun action => some (call action))

/-- `Bindings::run_action` called with a borrowed key of type `T`. -/
def Bindings.run_action_via {T : Type u} [DecidableEq T] (borrow : E → T)
    (call : A → R) (m : Bindings E A) (event : T) : Option R :=
  (Bindings.get_action_via borrow m event).bind (fun action => some (call action))

/-- `Bindings::with_init` (src/kbehdz.rs lines 52–62): start from
`Bindings::new()` and execute `self.0.insert(key.to_owned(), action)` for
each pair in sequence order.  The pairs are given with events already
converted to owned form by `to_owned`. -/
def Bindings.with_init [DecidableEq E] (bindings : List (E × A)) :
    Bindings E A :=
  bindings.foldl (fun kbs p => hmInsert kbs p.1 p.2) Bindings.new

/-- Instrumented `run_action`: also returns the list of action handles the
call invokes (the source invokes `action()` exactly once when the lookup
succeeds, and nothing otherwise). -/
def Bindings.run_action_tr [DecidableEq E] (call : A → R) (m : Bindings E A)
    (event : E) : Option R × List A :=
  match m.get_action event with
  | none => (none, [])
  | some action => (some (call action), [action])

/-- The registry's public operations after construction. -/
inductive Op (E : Type u) (A : Type v) where
  | get (event : E)
  | bind (event : E) (action : A)
  | run (event : E)

/-- One operation: the state afterwards (`get_action` and `run_action`
take `&self` and leave the map untouched; `bind_action` inserts), and the
handles invoked during the operation. -/
def Op.step [DecidableEq E] (call : A → R) (m : Bindings E A) :
    Op E A → Bindings E A × List A
  | Op.get _ => (m, [])
  | Op.bind e a => (m.bind_action e a, [])
  | Op.run e => (m, (Bindings.run_action_tr call m e).2)

/-- Execute a sequence of operations, collecting every invoked handle. -/
def Op.exec [DecidableEq E] (call : A → R) :
    Bindings E A → List (Op E A) → Bindings E A × List A
  | m, [] => (m, [])
  | m, op :: ops =>
      let s := Op.step call m op
      let r := Op.exec call s.1 ops
      (r.1, s.2 ++ r.2)

/-- The state after a sequence of operations (the invocation trace does not
feed back into the state). -/
def Op.execState [DecidableEq E] (m : Bindings E A) (ops : List (Op E A)) :
    Bindings E A :=
  (Op.exec (fun (_ : A) => ()) m ops).1

section Lemmas

variable [DecidableEq E]

theorem hmGet_insert_self (m : Bindings E A) (e : E) (a : A) :
    hmGet (hmInsert m e a) e = some a := by
  induction m with
  | nil => simp [hmInsert, hmGet]
  | cons p rest ih =>
      obtain ⟨k, v⟩ := p
      by_cases h : k = e
      · simp [hmInsert, hmGet, h]
      · simp [hmInsert, hmGet, h, ih]

theorem hmGet_insert_ne (m : Bindings E A) (e e' : E) (a : A)
    (h : e' ≠ e) : hmGet (hmInsert m e' a) e = hmGet m e := by
  induction m with
  | nil => simp [hmInsert, hmGet, h]
  | cons p rest ih =>
      obtain ⟨k, v⟩ := p
      by_cases hk : k = e'
      · subst hk
        simp [hmInsert, hmGet, h]
      · by_cases hke : k = e
        · simp [hmInsert, hmGet, hk, hke, Ne.symm h]
        · simp [hmInsert, hmGet, hk, hke, ih]

theorem get_action_eq_hmGet (m : Bindings E A) (e : E) :
    m.get_action e = hmGet m e := by
  unfold Bindings.get_action
  cases hmGet m e <;> rfl

theorem get_action_bind_self (m : Bindings E A) (e : E) (a : A) :
    (m.bind_action e a).get_action e = some a := by
  rw [get_action_eq_hmGet]
  exact hmGet_insert_self m e a

theorem get_action_bind_ne (m : Bindings E A) (e e' : E) (a : A)
    (h : e' ≠ e) : (m.bind_action e' a).get_action e = m.get_action e := by
  rw [get_action_eq_hmGet, get_action_eq_hmGet]
  exact hmGet_insert_ne m e e' a h

theorem exec_nil (call : A → R) (m : Bindings E A) :
    Op.exec call m [] = (m, []) := rfl

theorem exec_cons (call : A → R) (m : Bindings E A) (op : Op E A)
    (ops : List (Op E A)) :
    Op.exec call m (op :: ops) =
      ((Op.exec call (Op.step call m op).1 ops).1,
        (Op.step call m op).2 ++ (Op.exec call (Op.step call m op).1 ops).2) :=
  rfl

theorem execState_nil (m : Bindings E A) :
    Op.execState m ([] : List (Op E A)) = m := rfl

theorem execState_cons (m : Bindings E A) (op : Op E A)
    (ops : List (Op E A)) :
    Op.execState m (op :: ops) =
      Op.execState (Op.step (fun (_ : A) => ()) m op).1 ops := rfl

/-- The state component of a step does not depend on the interpretation of
the handles: only `run_action`'s returned value does. -/
theorem step_state_call_irrel {S : Type w} (call : A → R) (c0 : A → S)
    (m : Bindings E A) (op : Op E A) :
    (Op.step call m op).1 = (Op.step c0 m op).1 := by
  cases op <;> rfl

/-- The state after a sequence of operations none of which binds `e` has
the same binding for `e` as the initial state. -/
theorem execState_get_of_no_bind (e : E) (m : Bindings E A)
    (ops : List (Op E A)) (h : ∀ x : A, Op.bind e x ∉ ops) :
    (Op.execState m ops).get_action e = m.get_action e := by
  induction ops generalizing m with
  | nil => rfl
  | cons op ops ih =>
      have hops : ∀ x : A, Op.bind e x ∉ ops := by
        intro x hx
        exact h x (List.mem_cons_of_mem _ hx)
      rw [execState_cons]
      cases op with
      | get e' => exact ih _ hops
      | run e' => exact ih _ hops
      | bind e' a =>
          have hne : e' ≠ e := by
            intro he
            subst he
            exact h a (List.mem_cons_self _ _)
          rw [ih _ hops]
          exact get_action_bind_ne m e e' a hne

/-- A binding, once present, survives every operation (it can only be
replaced, never removed). -/
theorem execState_bound_mono (e : E) (a : A) (m : Bindings E A)
    (ops : List (Op E A)) (hbound : m.get_action e = some a) :
    ∃ a' : A, (Op.execState m ops).get_action e = some a' := by
  induction ops generalizing m a with
  | nil => exact ⟨a, hbound⟩
  | cons op ops ih =>
      rw [execState_cons]
      cases op with
      | get e' => exact ih _ _ hbound
      | run e' => exact ih _ _ hbound
      | bind e' a' =>
          by_cases he : e' = e
          · subst he
            exact ih _ _ (get_action_bind_self m e' a')
          · refine ih a _ ?_
            show (m.bind_action e' a').get_action e = some a
            rw [get_action_bind_ne m e e' a' he]
            exact hbound

end Lemmas

/-- The spec's description of execution, stated as its own definition for
the equivalence claim: "`run_action(event)` is equivalent to `get_action`
followed by invoking the returned action and returning its result; returns
nothing if the event is unbound." -/
def run_action_spec [DecidableEq E] (call : A → R) (m : Bindings E A)
    (event : E) : Option R :=
  match m.get_action event with
  | none => none
  | some action => some (call action)

/-- The spec's description of bulk construction, stated as its own
definition for the equivalence claim: "`new()` followed by `bind_action`
applied to each pair in sequence order." -/
def with_init_spec [DecidableEq E] (pairs : List (E × A)) : Bindings E A :=
  pairs.foldl (fun m p => m.bind_action p.1 p.2) Bindings.new

theorem hmGetBy_borrow_eq {T : Type u} [DecidableEq E] [DecidableEq T]
    (borrow : E → T) (hinj : ∀ x y : E, borrow x = borrow y → x = y)
    (m : Bindings E A) (e : E) :
    hmGetBy borrow m (borrow e) = hmGet m e := by
  induction m with
  | nil => rfl
  | cons p rest ih =>
      obtain ⟨k, v⟩ := p
      by_cases h : k = e
      · subst h
        simp [hmGetBy, hmGet]
      · have hb : borrow k ≠ borrow e := fun hbk => h (hinj _ _ hbk)
        simp [hmGetBy, hmGet, h, hb, ih]

/-- C1: after `bind_action(e, a1)` then `bind_action(e, a2)` on any registry,
`run_action(e)` returns `a2`'s result, its one invocation is of `a2`'s
handle, and (when the handles differ) `a1` is never invoked: the second
binding overwrites the first. -/
theorem C1_rebind_overwrites (call : A → R) [DecidableEq E]
    (m : Bindings E A) (e : E) (a1 a2 : A) :
    Bindings.run_action call ((m.bind_action e a1).bind_action e a2) e
      = some (call a2) ∧
    Bindings.run_action_tr call ((m.bind_action e a1).bind_action e a2) e
      = (some (call a2), [a2]) ∧
    (a1 ≠ a2 →
      a1 ∉ (Bindings.run_action_tr call
        ((m.bind_action e a1).bind_action e a2) e).2) := by
  have hg := get_action_bind_self (m.bind_action e a1) e a2
  refine ⟨?_, ?_, ?_⟩
  · simp [Bindings.run_action, hg]
  · simp [Bindings.run_action_tr, hg]
  · intro hne
    simp [Bindings.run_action_tr, hg]
    exact hne

/-- Witness for C1 at a concrete input. -/
theorem C1_rebind_overwrites_witness :
    Bindings.run_action (fun a : Nat => 10 * a)
      (((Bindings.new : Bindings Nat Nat).bind_action 0 1).bind_action 0 2) 0
      = some 20 ∧
    Bindings.run_action_tr (fun a : Nat => 10 * a)
      (((Bindings.new : Bindings Nat Nat).bind_action 0 1).bind_action 0 2) 0
      = (some 20, [2]) ∧
    ((1 : Nat) ≠ 2 →
      (1 : Nat) ∉ (Bindings.run_action_tr (fun a : Nat => 10 * a)
        (((Bindings.new : Bindings Nat Nat).bind_action 0 1).bind_action 0 2)
        0).2) :=
  C1_rebind_overwrites (fun a : Nat => 10 * a) Bindings.new 0 1 2

/-- C2: `run_action` is the composition of `get_action` with invocation of
the returned handle, and on an unbound event it returns `none` and invokes
nothing. -/
theorem C2_run_eq_get_then_invoke (call : A → R) [DecidableEq E]
    (m : Bindings E A) (e : E) :
    Bindings.run_action call m e = run_action_spec call m e ∧
    (∀ a : A, m.get_action e = some a →
      Bindings.run_action call m e = some (call a) ∧
      Bindings.run_action_tr call m e = (some (call a), [a])) ∧
    (m.get_action e = none →
      Bindings.run_action call m e = none ∧
      Bindings.run_action_tr call m e = (none, [])) := by
  refine ⟨?_, ?_, ?_⟩
  · cases hg : m.get_action e <;>
      simp [Bindings.run_action, run_action_spec, hg]
  · intro a hg
    simp [Bindings.run_action, Bindings.run_action_tr, hg]
  · intro hg
    simp [Bindings.run_action, Bindings.run_action_tr, hg]

/-- Witness for C2 at a concrete input (one bound and one unbound event on
the same registry, each handled through the theorem). -/
theorem C2_run_eq_get_then_invoke_witness :
    (Bindings.run_action (fun a : Nat => a + 1)
        ((Bindings.new : Bindings Nat Nat).bind_action 0 5) 0
      = run_action_spec (fun a : Nat => a + 1)
        ((Bindings.new : Bindings Nat Nat).bind_action 0 5) 0) ∧
    (Bindings.run_action (fun a : Nat => a + 1)
        ((Bindings.new : Bindings Nat Nat).bind_action 0 5) 0 = some 6 ∧
      Bindings.run_action_tr (fun a : Nat => a + 1)
        ((Bindings.new : Bindings Nat Nat).bind_action 0 5) 0
        = (some 6, [5])) ∧
    (Bindings.run_action (fun a : Nat => a + 1)
        ((Bindings.new : Bindings Nat Nat).bind_action 0 5) 1 = none ∧
      Bindings.run_action_tr (fun a : Nat => a + 1)
        ((Bindings.new : Bindings Nat Nat).bind_action 0 5) 1 = (none, [])) :=
  ⟨(C2_run_eq_get_then_invoke (fun a : Nat => a + 1)
      ((Bindings.new : Bindings Nat Nat).bind_action 0 5) 0).1,
    (C2_run_eq_get_then_invoke (fun a : Nat => a + 1)
      ((Bindings.new : Bindings Nat Nat).bind_action 0 5) 0).2.1 5 (by decide),
    (C2_run_eq_get_then_invoke (fun a : Nat => a + 1)
      ((Bindings.new : Bindings Nat Nat).bind_action 0 5) 1).2.2 (by decide)⟩

/-- C3: for any event never bound across any sequence of operations on a
registry produced by `new()`, `get_action` and `run_action` both return
`none` and no action is invoked by the lookup; both are total functions, so
no failure is possible. -/
theorem C3_unbound_returns_none (call : A → R) [DecidableEq E] (e : E)
    (ops : List (Op E A)) (h : ∀ x : A, Op.bind e x ∉ ops) :
    (Op.execState (Bindings.new : Bindings E A) ops).get_action e = none ∧
    Bindings.run_action call (Op.execState (Bindings.new : Bindings E A) ops) e
      = none ∧
    (Bindings.run_action_tr call
      (Op.execState (Bindings.new : Bindings E A) ops) e).2 = [] := by
  have hnone : (Op.execState (Bindings.new : Bindings E A) ops).get_action e
      = none := by
    rw [execState_get_of_no_bind e Bindings.new ops h]
    rfl
  refine ⟨hnone, ?_, ?_⟩
  · simp [Bindings.run_action, hnone]
  · simp [Bindings.run_action_tr, hnone]

/-- Witness for C3: a registry built by binding and running event 1 never
binds event 0, whose lookup stays `none` with an empty invocation list. -/
theorem C3_unbound_returns_none_witness :
    (Op.execState (Bindings.new : Bindings Nat Nat)
        [Op.bind 1 5, Op.run 1, Op.get 0]).get_action 0 = none ∧
    Bindings.run_action (fun a : Nat => a)
        (Op.execState (Bindings.new : Bindings Nat Nat)
          [Op.bind 1 5, Op.run 1, Op.get 0]) 0 = none ∧
    (Bindings.run_action_tr (fun a : Nat => a)
        (Op.execState (Bindings.new : Bindings Nat Nat)
          [Op.bind 1 5, Op.run 1, Op.get 0]) 0).2 = [] :=
  C3_unbound_returns_none (fun a : Nat => a) 0 [Op.bind 1 5, Op.run 1, Op.get 0]
    (by intro x hx; simp [List.mem_cons] at hx)

/-- C4: `with_init(pairs)` is observationally equal to `new()` followed by
`bind_action` on each pair in sequence order, and a later pair for a
duplicate event wins. -/
theorem C4_with_init_eq_sequential [DecidableEq E] (pairs : List (E × A))
    (e : E) :
    (Bindings.with_init pairs).get_action e
      = (with_init_spec pairs).get_action e ∧
    (∀ (a : A) (ps : List (E × A)), pairs = ps ++ [(e, a)] →
      (Bindings.with_init pairs).get_action e = some a) := by
  constructor
  · rfl
  · intro a ps hps
    subst hps
    unfold Bindings.with_init
    rw [List.foldl_append]
    simp only [List.foldl_cons, List.foldl_nil]
    exact get_action_bind_self _ e a

/-- Witness for C4: two pairs for the same event; the later one wins, and
bulk construction agrees with sequential insertion. -/
theorem C4_with_init_eq_sequential_witness :
    (Bindings.with_init [((0 : Nat), (1 : Nat)), (0, 2)]).get_action 0
      = (with_init_spec [((0 : Nat), (1 : Nat)), (0, 2)]).get_action 0 ∧
    (Bindings.with_init [((0 : Nat), (1 : Nat)), (0, 2)]).get_action 0
      = some 2 :=
  ⟨(C4_with_init_eq_sequential [((0 : Nat), (1 : Nat)), (0, 2)] 0).1,
    (C4_with_init_eq_sequential [((0 : Nat), (1 : Nat)), (0, 2)] 0).2 2
      [(0, 1)] rfl⟩

/-- C5: looking up through any borrowed representation whose equality agrees
with the owned event type's equality (the `Borrow`/`Hash` contract) gives
the same result as looking up the owned event, for both `get_action` and
`run_action`. -/
theorem C5_borrow_transparent {T : Type u} [DecidableEq E] [DecidableEq T]
    (borrow : E → T) (hinj : ∀ x y : E, borrow x = borrow y → x = y)
    (call : A → R) (m : Bindings E A) (e : E) :
    Bindings.get_action_via borrow m (borrow e) = m.get_action e ∧
    Bindings.run_action_via borrow call m (borrow e)
      = Bindings.run_action call m e := by
  have hget : Bindings.get_action_via borrow m (borrow e) = m.get_action e := by
    unfold Bindings.get_action_via
    rw [hmGetBy_borrow_eq borrow hinj m e, ← get_action_eq_hmGet]
    cases m.get_action e <;> rfl
  refine ⟨hget, ?_⟩
  unfold Bindings.run_action_via Bindings.run_action
  rw [hget]

/-- Witness for C5 with a non-trivial injective borrowed representation of
`Nat` keys. -/
theorem C5_borrow_transparent_witness :
    Bindings.get_action_via Nat.succ
        ((Bindings.new : Bindings Nat Nat).bind_action 0 3) (Nat.succ 0)
      = ((Bindings.new : Bindings Nat Nat).bind_action 0 3).get_action 0 ∧
    Bindings.run_action_via Nat.succ (fun a : Nat => a + 1)
        ((Bindings.new : Bindings Nat Nat).bind_action 0 3) (Nat.succ 0)
      = Bindings.run_action (fun a : Nat => a + 1)
        ((Bindings.new : Bindings Nat Nat).bind_action 0 3) 0 :=
  C5_borrow_transparent Nat.succ (fun _ _ hxy => Nat.succ_injective hxy)
    (fun a : Nat => a + 1) ((Bindings.new : Bindings Nat Nat).bind_action 0 3) 0

/-- C6: `get_action` and `run_action` leave the registry unchanged: the
state after either operation is the state before, so every subsequent
lookup returns the same handle. -/
theorem C6_queries_pure (call : A → R) [DecidableEq E] (m : Bindings E A)
    (e : E) :
    (Op.step call m (Op.get e)).1 = m ∧
    (Op.step call m (Op.run e)).1 = m ∧
    (∀ e' : E, ((Op.step call m (Op.get e)).1).get_action e'
      = m.get_action e') ∧
    (∀ e' : E, ((Op.step call m (Op.run e)).1).get_action e'
      = m.get_action e') :=
  ⟨rfl, rfl, fun _ => rfl, fun _ => rfl⟩

/-- C7: for distinct events, binding `e2` neither changes nor removes the
binding of `e1`: after `bind_action(e1, a1)` then `bind_action(e2, a2)`,
`get_action(e1)` still returns `a1`, and on any registry binding `e2`
leaves `e1`'s lookup untouched. -/
theorem C7_distinct_bindings_independent [DecidableEq E]
    (m : Bindings E A) (e1 e2 : E) (a1 a2 : A) (h : e1 ≠ e2) :
    ((m.bind_action e1 a1).bind_action e2 a2).get_action e1 = some a1 ∧
    (∀ m' : Bindings E A,
      (m'.bind_action e2 a2).get_action e1 = m'.get_action e1) := by
  constructor
  · rw [get_action_bind_ne _ e1 e2 a2 (Ne.symm h)]
    exact get_action_bind_self m e1 a1
  · intro m'
    exact get_action_bind_ne m' e1 e2 a2 (Ne.symm h)

/-- Witness for C7 at concrete distinct events. -/
theorem C7_distinct_bindings_independent_witness :
    (((Bindings.new : Bindings Nat Nat).bind_action 0 1).bind_action 1 2).get_action 0
      = some 1 ∧
    (∀ m' : Bindings Nat Nat,
      (m'.bind_action 1 2).get_action 0 = m'.get_action 0) :=
  C7_distinct_bindings_independent Bindings.new 0 1 1 2 (by decide)

/-- C8: across any sequence of operations, every invoked handle comes from
a `run_action` on an event to which that handle was bound at that moment;
`get_action` and `bind_action` steps contribute no invocations. -/
theorem C8_no_spurious_invocation (call : A → R) [DecidableEq E]
    (m : Bindings E A) (ops : List (Op E A)) (a : A)
    (hmem : a ∈ (Op.exec call m ops).2) :
    ∃ (pre : List (Op E A)) (e : E) (post : List (Op E A)),
      ops = pre ++ Op.run e :: post ∧
      (Op.exec call m pre).1.get_action e = some a := by
  induction ops generalizing m with
  | nil => simp [exec_nil] at hmem
  | cons op ops ih =>
      rw [exec_cons] at hmem
      rcases List.mem_append.mp hmem with hstep | hrest
      · cases op with
        | get e => simp [Op.step] at hstep
        | bind e a' => simp [Op.step] at hstep
        | run e =>
            refine ⟨[], e, ops, rfl, ?_⟩
            rw [exec_nil]
            cases hg : m.get_action e with
            | none => simp [Op.step, Bindings.run_action_tr, hg] at hstep
            | some a0 =>
                simp [Op.step, Bindings.run_action_tr, hg] at hstep
                subst hstep
                rfl
      · obtain ⟨pre, e, post, hops, hget⟩ := ih _ hrest
        refine ⟨op :: pre, e, post, by simp [hops], ?_⟩
        rw [exec_cons]
        exact hget

/-- Witness for C8: in a run of `get`, `bind` and `run` operations the only
invocation is of the handle bound to the event that was run. -/
theorem C8_no_spurious_invocation_witness :
    (7 : Nat) ∈ (Op.exec (fun a : Nat => a)
      ((Bindings.new : Bindings Nat Nat).bind_action 0 7)
      [Op.get 1, Op.bind 1 9, Op.run 0]).2 ∧
    ∃ (pre : List (Op Nat Nat)) (e : Nat) (post : List (Op Nat Nat)),
      [Op.get 1, Op.bind 1 9, Op.run 0] = pre ++ Op.run e :: post ∧
      (Op.exec (fun a : Nat => a)
        ((Bindings.new : Bindings Nat Nat).bind_action 0 7) pre).1.get_action e
        = some 7 :=
  ⟨by decide,
    C8_no_spurious_invocation (fun a : Nat => a)
      ((Bindings.new : Bindings Nat Nat).bind_action 0 7)
      [Op.get 1, Op.bind 1 9, Op.run 0] 7 (by decide)⟩

/-- C9: a handle returned by `get_action` can be bound to a different event
and then denotes the same computation: running the new event returns the
same result as running the original one, and the rebinding itself invokes
nothing. -/
theorem C9_handle_transferable (call : A → R) [DecidableEq E]
    (m : Bindings E A) (ea eb : E) (a : A)
    (hget : m.get_action ea = some a) :
    Bindings.run_action call (m.bind_action eb a) eb
      = Bindings.run_action call m ea ∧
    Bindings.run_action call (m.bind_action eb a) eb = some (call a) ∧
    (Op.step call m (Op.bind eb a)).2 = [] := by
  have h1 : Bindings.run_action call (m.bind_action eb a) eb
      = some (call a) := by
    simp [Bindings.run_action, get_action_bind_self]
  have h2 : Bindings.run_action call m ea = some (call a) := by
    simp [Bindings.run_action, hget]
  exact ⟨h1.trans h2.symm, h1, rfl⟩

/-- Witness for C9: the handle looked up at event 0 is rebound to event 1
and yields the same result there. -/
theorem C9_handle_transferable_witness :
    Bindings.run_action (fun a : Nat => a * a)
        (((Bindings.new : Bindings Nat Nat).bind_action 0 3).bind_action 1 3) 1
      = Bindings.run_action (fun a : Nat => a * a)
        ((Bindings.new : Bindings Nat Nat).bind_action 0 3) 0 ∧
    Bindings.run_action (fun a : Nat => a * a)
        (((Bindings.new : Bindings Nat Nat).bind_action 0 3).bind_action 1 3) 1
      = some 9 ∧
    (Op.step (fun a : Nat => a * a)
      ((Bindings.new : Bindings Nat Nat).bind_action 0 3) (Op.bind 1 3)).2
      = [] :=
  C9_handle_transferable (fun a : Nat => a * a)
    ((Bindings.new : Bindings Nat Nat).bind_action 0 3) 0 1 3 (by decide)

/-- C10: no operation removes a binding: once `e` is bound, `get_action e`
returns `some` after every sequence of operations, and if no operation
rebinds `e` its handle is exactly the original one. -/
theorem C10_bindings_never_removed [DecidableEq E] (m : Bindings E A)
    (e : E) (a : A) (hbound : m.get_action e = some a)
    (ops : List (Op E A)) :
    (∃ a' : A, (Op.execState m ops).get_action e = some a') ∧
    ((∀ x : A, Op.bind e x ∉ ops) →
      (Op.execState m ops).get_action e = some a) := by
  refine ⟨execState_bound_mono e a m ops hbound, ?_⟩
  intro h
  rw [execState_get_of_no_bind e m ops h]
  exact hbound

/-- Witness for C10: event 0, once bound, stays bound across later
operations. -/
theorem C10_bindings_never_removed_witness :
    (∃ a' : Nat, (Op.execState ((Bindings.new : Bindings Nat Nat).bind_action 0 1)
      [Op.run 0, Op.get 1, Op.bind 1 4]).get_action 0 = some a') ∧
    ((∀ x : Nat, Op.bind 0 x ∉ [Op.run 0, Op.get 1, Op.bind 1 4]) →
      (Op.execState ((Bindings.new : Bindings Nat Nat).bind_action 0 1)
        [Op.run 0, Op.get 1, Op.bind 1 4]).get_action 0 = some 1) :=
  C10_bindings_never_removed ((Bindings.new : Bindings Nat Nat).bind_action 0 1)
    0 1 (by decide) [Op.run 0, Op.get 1, Op.bind 1 4]
